import Mathlib

/-!
# Verification of the `agsim` discrete-event agent simulation engine

Shallow embedding of the Rust sources:

* `src/state.rs`  — `StateChangeEvent`, the `State` diff contract, `Timeline`
  reconstruction;
* `src/agent.rs`  — `StateType`, `Agent` and its operations `new`, `step`,
  `peek_next_event_delay`, `apply_transition`, `get_target_state`;
* `src/simulation.rs` — `ScheduledEvent`, `Simulation` and its operations
  `run`, `run_streaming`, `initialize_queue` (here `init_queue`),
  `process_event_step`, `seconds_to_duration`, `schedule_next_event`.

Modelling conventions:

* Timestamps (`chrono::DateTime<Utc>`) are `Int`, measured in milliseconds;
  `chrono::Duration` values are likewise `Int` milliseconds (the engine only
  ever constructs whole-millisecond durations via `seconds_to_duration`, and
  `Duration::seconds(1)` is `1000`).
* `f64` quantities (weights, rates, sampled delays) are `Rat`.  No claim here
  depends on binary floating-point rounding.
* The random source (`rand::RngCore` / `StdRng`) is an abstract state type `ρ`
  threaded explicitly through every sampling call, exactly as the single
  `&mut dyn RngCore` is threaded through the Rust code.  The two distribution
  primitives that consume randomness are abstract parameters bundled in
  `SimEnv`: `expSample` (a draw from `rand_distr::Exp`) and `uniformBelow`
  (the uniform draw in `[0, total)` that drives `choose_weighted`).
* The user-supplied state type (the `State` trait) is an abstract type `S`
  together with a diff function `SimEnv.diffS`, mirroring
  `State::diff(&self, other, time) -> Vec<StateChangeEvent>`.
* `HashMap<C, StateType<C, S>>` is modelled as a total lookup function
  `C → Option (StateType ρ C S)` (only `get` is ever used on it).
* Fallible code (`expect`-panics in `Agent::new`) returns `Option`.
-/

/-- `StateChangeEvent` from `src/state.rs` (fields in declaration order). -/
structure StateChangeEvent where
  time : Int
  agent_id : String
  field : String
  new_value : String
  old_value : String
  deriving DecidableEq

/-- The abstract environment: the `State::diff` capability of the user state
type `S`, and the two randomness primitives used by the engine, acting on an
abstract RNG state `ρ`.  `expSample rng lambda` models
`Exp::new(lambda).unwrap().sample(rng)`; `uniformBelow rng total` models the
uniform draw in `[0, total)` performed inside
`SliceRandom::choose_weighted`. -/
structure SimEnv (ρ S : Type) where
  diffS : S → S → Int → List StateChangeEvent
  expSample : ρ → Rat → Rat × ρ
  uniformBelow : ρ → Rat → Rat × ρ

/-- `StateType` from `src/agent.rs`: per-category transition definition.
`factory` consumes randomness, so it maps an RNG state to a value and the
successor RNG state. -/
structure StateType (ρ C S : Type) where
  factory : ρ → S × ρ
  transitions : List (C × Rat)
  event_rate : Rat

/-- `Agent` from `src/agent.rs`. -/
structure Agent (ρ C S : Type) where
  transition_matrix : C → Option (StateType ρ C S)
  current_state_type : C
  data : S
  id : String

namespace Agent

/-- `Agent::new` from `src/agent.rs`.  The Rust code panics (via `expect`)
when the initial state type is absent from the transition matrix; the
embedding returns `none` in that case.  On success it returns the constructed
agent together with the RNG state left after the single generator call. -/
def new {ρ C S : Type} (id : String) (initial_state_type : C)
    (transition_matrix : C → Option (StateType ρ C S)) (rng : ρ) :
    Option (Agent ρ C S × ρ) :=
  match transition_matrix initial_state_type with
  | none => none
  | some initial_def =>
    let p := initial_def.factory rng
    some ({ transition_matrix := transition_matrix
            current_state_type := initial_state_type
            data := p.1
            id := id }, p.2)

/-- The selection kernel of `rand`'s `choose_weighted`: given a uniform draw
`u` in `[0, total)`, walk the cumulative weights and return the first item
whose cumulative weight exceeds `u`. -/
def pickByWeight {C : Type} : List (C × Rat) → Rat → Option C
  | [], _ => none
  | (a, w) :: rest, u => if u < w then some a else pickByWeight rest (u - w)

/-- `SliceRandom::choose_weighted` from the `rand` crate (external to the
repository; modelled from its documented semantics): returns an error — hence
`none` after `.ok()` — when some weight is negative or the total weight is
non-positive (this also covers the empty slice), and otherwise selects an
element with probability proportional to its weight, by drawing a uniform
value below the total weight.  Randomness is consumed only on the success
path. -/
def chooseWeighted {ρ C S : Type} (env : SimEnv ρ S) (l : List (C × Rat))
    (rng : ρ) : Option C × ρ :=
  if ∃ p ∈ l, p.2 < 0 then (none, rng)
  else if (l.map Prod.snd).sum ≤ 0 then (none, rng)
  else
    let p := env.uniformBelow rng ((l.map Prod.snd).sum)
    (pickByWeight l p.1, p.2)

/-- `Agent::step` from `src/agent.rs`: look up the current category; `none`
if absent or if the successor list is empty; otherwise a weighted draw over
the successors. -/
def step {ρ C S : Type} (env : SimEnv ρ S) (a : Agent ρ C S) (rng : ρ) :
    Option C × ρ :=
  match a.transition_matrix a.current_state_type with
  | none => (none, rng)
  | some current_def =>
    if current_def.transitions.isEmpty then (none, rng)
    else chooseWeighted env current_def.transitions rng

/-- `Agent::peek_next_event_delay` from `src/agent.rs`: `none` when the
current category is absent or its `event_rate` is non-positive; otherwise a
draw from `Exp(1 / event_rate)`.  (`Exp::new` only fails for a non-positive
rate, which cannot happen here since `1 / event_rate > 0` over `Rat`.)
Randomness is consumed only on the success path. -/
def peek_next_event_delay {ρ C S : Type} (env : SimEnv ρ S) (a : Agent ρ C S)
    (rng : ρ) : Option Rat × ρ :=
  match a.transition_matrix a.current_state_type with
  | none => (none, rng)
  | some current_def =>
    if current_def.event_rate ≤ 0 then (none, rng)
    else
      let lam := 1 / current_def.event_rate
      let p := env.expSample rng lam
      (some p.1, p.2)

/-- `Agent::get_target_state` from `src/agent.rs`. -/
def get_target_state {ρ C S : Type} (a : Agent ρ C S) (state_type : C)
    (rng : ρ) : Option (S × ρ) :=
  (a.transition_matrix state_type).map (fun def_ => def_.factory rng)

/-- `Agent::apply_transition` from `src/agent.rs`: record the new category
first; if the target category is absent, return no events; otherwise generate
the target state, diff old against new at `time`, stamp the agent id on every
event, replace the state, and return the events. -/
def apply_transition {ρ C S : Type} (env : SimEnv ρ S) (a : Agent ρ C S)
    (new_type : C) (time : Int) (rng : ρ) :
    List StateChangeEvent × Agent ρ C S × ρ :=
  let a1 : Agent ρ C S := { a with current_state_type := new_type }
  match a.get_target_state new_type rng with
  | none => ([], a1, rng)
  | some (target_state, rng1) =>
    let events := (env.diffS a.data target_state time).map
      (fun e => { e with agent_id := a.id })
    (events, { a1 with data := target_state }, rng1)

end Agent

/-! ## The simulation engine (`src/simulation.rs`) -/

/-- `ScheduledEvent` from `src/simulation.rs`. -/
structure ScheduledEvent (C : Type) where
  time : Int
  agent_index : Nat
  next_state_type : Option C

/-- The queue order: ascending scheduled time.  The Rust code stores
`ScheduledEvent`s in a `std::collections::BinaryHeap` whose `Ord` reverses
the time comparison, so `pop` always yields an element of minimal time; the
order in which equal-time entries are popped is unspecified by `BinaryHeap`.
The embedding models the heap as a time-sorted list (push = ordered
insertion, pop = head), a deterministic refinement of that behaviour. -/
def schedLE {C : Type} (a b : ScheduledEvent C) : Prop := a.time ≤ b.time

instance {C : Type} : DecidableRel (@schedLE C) :=
  fun a b => inferInstanceAs (Decidable (a.time ≤ b.time))

instance {C : Type} : IsTotal (ScheduledEvent C) schedLE :=
  ⟨fun a b => Int.le_total a.time b.time⟩

instance {C : Type} : IsTrans (ScheduledEvent C) schedLE :=
  ⟨fun _ _ _ hab hbc => le_trans hab hbc⟩

/-- Push onto the scheduler queue (`BinaryHeap::push` under the model
above). -/
def heapPush {C : Type} (e : ScheduledEvent C) (q : List (ScheduledEvent C)) :
    List (ScheduledEvent C) :=
  q.orderedInsert schedLE e

/-- `Simulation` from `src/simulation.rs`. -/
structure Simulation (ρ C S : Type) where
  agents : List (Agent ρ C S)
  current_time : Int
  event_log : List StateChangeEvent
  rng : ρ

namespace Simulation

/-- `Simulation::new` / `Simulation::new_with_seed`: both start with an empty
event log at the given start time; the initial RNG state abstracts
`StdRng::from_entropy()` resp. `StdRng::seed_from_u64(seed)`. -/
def new_with_seed {ρ C S : Type} (agents : List (Agent ρ C S))
    (start_time : Int) (rng : ρ) : Simulation ρ C S :=
  { agents := agents, current_time := start_time, event_log := [], rng := rng }

/-- `f64::round`: round half away from zero. -/
def roundRat (q : Rat) : Int := if q < 0 then -⌊-q + 1/2⌋ else ⌊q + 1/2⌋

/-- `Simulation::seconds_to_duration` from `src/simulation.rs`: seconds to a
whole number of milliseconds, rounding to the nearest. -/
def seconds_to_duration (seconds : Rat) : Int := roundRat (seconds * 1000)

/-- `Simulation::schedule_next_event` from `src/simulation.rs`: sample the
delay; if present, sample the successor category; if present, push the
scheduled event at `current_time + delay`.  (The out-of-range agent index
case is unreachable: in Rust `self.agents[agent_index]` is always in
bounds, as indices come from `0..agents.len()` and from popped events.) -/
def schedule_next_event {ρ C S : Type} (env : SimEnv ρ S)
    (sim : Simulation ρ C S) (agent_index : Nat)
    (q : List (ScheduledEvent C)) :
    Simulation ρ C S × List (ScheduledEvent C) :=
  match sim.agents.get? agent_index with
  | none => (sim, q)
  | some a =>
    let pd := Agent.peek_next_event_delay env a sim.rng
    match pd.1 with
    | none => ({ sim with rng := pd.2 }, q)
    | some delay_sec =>
      let pc := Agent.step env a pd.2
      match pc.1 with
      | none => ({ sim with rng := pc.2 }, q)
      | some next_state =>
        let event_time := sim.current_time + seconds_to_duration delay_sec
        ({ sim with rng := pc.2 },
          heapPush { time := event_time, agent_index := agent_index
                     next_state_type := some next_state } q)

/-- `Simulation::process_event_step` from `src/simulation.rs`: advance
`current_time` to the event's time; if the event carries a target category,
apply the transition on the referenced agent and schedule that agent's next
event.  The produced changes are returned to the caller, which plays the
role of the `handler` closure: `run` appends them to the event log,
`run_streaming` feeds them to the callback. -/
def process_event_step {ρ C S : Type} (env : SimEnv ρ S)
    (sim : Simulation ρ C S) (event : ScheduledEvent C)
    (q : List (ScheduledEvent C)) :
    List StateChangeEvent × Simulation ρ C S × List (ScheduledEvent C) :=
  let sim1 : Simulation ρ C S := { sim with current_time := event.time }
  match event.next_state_type with
  | none => ([], sim1, q)
  | some target_type =>
    match sim1.agents.get? event.agent_index with
    | none => ([], sim1, q)
    | some agent =>
      let r := Agent.apply_transition env agent target_type sim1.current_time sim1.rng
      let sim2 : Simulation ρ C S :=
        { sim1 with agents := sim1.agents.set event.agent_index r.2.1
                    rng := r.2.2 }
      let sq := schedule_next_event env sim2 event.agent_index q
      (r.1, sq.1, sq.2)

/-- The `while let Some(event) = queue.pop()` loop of `Simulation::run`,
with an explicit fuel bound (the Rust loop need not terminate — an agent
whose sampled delays all round to zero milliseconds fires forever at the
same instant — so the embedding bounds the number of iterations). -/
def run_loop {ρ C S : Type} (env : SimEnv ρ S) (end_time : Int) :
    Nat → Simulation ρ C S → List (ScheduledEvent C) → Simulation ρ C S
  | 0, sim, _ => sim
  | _ + 1, sim, [] => sim
  | fuel + 1, sim, e :: rest =>
    if end_time < e.time then sim
    else
      let r := process_event_step env sim e rest
      run_loop env end_time fuel
        { r.2.1 with event_log := r.2.1.event_log ++ r.1 } r.2.2

/-- `Simulation::initialize_queue` from `src/simulation.rs` (named
`init_queue` here): build the first scheduled event for every agent in index
order. -/
def init_queue {ρ C S : Type} (env : SimEnv ρ S) (sim : Simulation ρ C S) :
    Simulation ρ C S × List (ScheduledEvent C) :=
  (List.range sim.agents.length).foldl
    (fun p i => schedule_next_event env p.1 i p.2) (sim, [])

/-- `Simulation::run` from `src/simulation.rs` (batch mode): process events
up to `current_time + duration`, accumulate changes into the event log and
return its final contents (`self.event_log.clone()`). -/
def run {ρ C S : Type} (env : SimEnv ρ S) (fuel : Nat)
    (sim : Simulation ρ C S) (duration : Int) :
    List StateChangeEvent × Simulation ρ C S :=
  let end_time := sim.current_time + duration
  let p := init_queue env sim
  let simF := run_loop env end_time fuel p.1 p.2
  (simF.event_log, simF)

/-- The loop of `Simulation::run_streaming`: same loop as `run`, but each
change is passed to the callback (modelled as a fold function `f` over an
accumulator of type `A`) and the event log is left untouched. -/
def stream_loop {ρ C S A : Type} (env : SimEnv ρ S) (end_time : Int)
    (f : A → StateChangeEvent → A) :
    Nat → Simulation ρ C S → List (ScheduledEvent C) → A →
      Simulation ρ C S × A
  | 0, sim, _, acc => (sim, acc)
  | _ + 1, sim, [], acc => (sim, acc)
  | fuel + 1, sim, e :: rest, acc =>
    if end_time < e.time then (sim, acc)
    else
      let r := process_event_step env sim e rest
      stream_loop env end_time f fuel r.2.1 r.2.2 (r.1.foldl f acc)

/-- `Simulation::run_streaming` from `src/simulation.rs` (streaming mode). -/
def run_streaming {ρ C S A : Type} (env : SimEnv ρ S) (fuel : Nat)
    (sim : Simulation ρ C S) (duration : Int)
    (f : A → StateChangeEvent → A) (acc : A) : Simulation ρ C S × A :=
  let end_time := sim.current_time + duration
  let p := init_queue env sim
  stream_loop env end_time f fuel p.1 p.2 acc

/-- Proof-only companion of the two loops: the final simulation state
together with the list of changes produced inside the loop (the event log
field is carried around but never written). -/
def run_loop_new {ρ C S : Type} (env : SimEnv ρ S) (end_time : Int) :
    Nat → Simulation ρ C S → List (ScheduledEvent C) →
      Simulation ρ C S × List StateChangeEvent
  | 0, sim, _ => (sim, [])
  | _ + 1, sim, [] => (sim, [])
  | fuel + 1, sim, e :: rest =>
    if end_time < e.time then (sim, [])
    else
      let r := process_event_step env sim e rest
      let n := run_loop_new env end_time fuel r.2.1 r.2.2
      (n.1, r.1 ++ n.2)

end Simulation

/-! ## Timeline reconstruction (`src/state.rs`) -/

/-- `TimelineEntry` from `src/state.rs`.  `state` models the
`BTreeMap<String, String>` as an association list sorted by key. -/
structure TimelineEntry where
  timestamp : Int
  state : List (String × String)
  events : List String
  deriving DecidableEq

/-- `Timeline` from `src/state.rs`. -/
structure Timeline where
  entries : List TimelineEntry
  deriving DecidableEq

/-- `BTreeMap::insert` on the key-sorted association list model. -/
def btInsert (k v : String) : List (String × String) → List (String × String)
  | [] => [(k, v)]
  | (k', v') :: rest =>
    if k = k' then (k, v) :: rest
    else if k < k' then (k, v) :: (k', v') :: rest
    else (k', v') :: btInsert k v rest

/-- The first pass of `generate_single_timeline`: for each field, record the
`old_value` of the first event that mentions it (`current_state` seeded with
pre-history values; `seen` models the `HashSet` of seen fields). -/
def buildPre : List StateChangeEvent → List (String × String) → List String →
    List (String × String)
  | [], st, _ => st
  | e :: rest, st, seen =>
    if e.field ∈ seen then buildPre rest st seen
    else buildPre rest (btInsert e.field e.old_value st) (e.field :: seen)

/-- Insert an event into the `BTreeMap<DateTime, Vec<&Event>>` model: a
time-sorted association list whose groups keep insertion order. -/
def groupInsert (e : StateChangeEvent) :
    List (Int × List StateChangeEvent) → List (Int × List StateChangeEvent)
  | [] => [(e.time, [e])]
  | (t, es) :: rest =>
    if e.time = t then (t, es ++ [e]) :: rest
    else if e.time < t then (e.time, [e]) :: (t, es) :: rest
    else (t, es) :: groupInsert e rest

def eventsByTime (l : List StateChangeEvent) :
    List (Int × List StateChangeEvent) :=
  l.foldl (fun m e => groupInsert e m) []

/-- Apply one timestamp group onto the running snapshot, collecting the
fields it touches (the inner loop of `generate_single_timeline`). -/
def applyGroup (st : List (String × String)) (grp : List StateChangeEvent) :
    List (String × String) × List String :=
  grp.foldl (fun p e => (btInsert e.field e.new_value p.1, p.2 ++ [e.field]))
    (st, [])

/-- Emit one `TimelineEntry` per timestamp group, threading the running
snapshot. -/
def buildEntries (st : List (String × String)) :
    List (Int × List StateChangeEvent) → List TimelineEntry
  | [] => []
  | (t, grp) :: rest =>
    let p := applyGroup st grp
    { timestamp := t, state := p.1, events := p.2 } :: buildEntries p.1 rest

namespace Timeline

/-- `Timeline::generate_single_timeline` from `src/state.rs`.  The stable
`sort_by_key(|e| e.time)` is modelled by Mathlib's stable insertion sort on
the time order; `Duration::seconds(1)` is `1000` milliseconds. -/
def generate_single_timeline (events : List StateChangeEvent) :
    Option Timeline :=
  match events with
  | [] => none
  | _ :: _ =>
    let sorted_events :=
      List.insertionSort (fun a b : StateChangeEvent => a.time ≤ b.time) events
    let current_state := buildPre sorted_events [] []
    let events_by_time := eventsByTime sorted_events
    let head_entries : List TimelineEntry :=
      match sorted_events with
      | [] => []
      | s0 :: _ =>
        [{ timestamp := s0.time - 1000, state := current_state, events := [] }]
    some { entries := head_entries ++ buildEntries current_state events_by_time }

/-- Group events by agent id: the contents of the Rust
`HashMap<String, Vec<Event>>` built with `entry().or_default().push()`,
listed in first-occurrence order (the `HashMap`'s own iteration order is
unspecified; the per-agent event lists are exactly the same). -/
def addAgent : List (String × List StateChangeEvent) → StateChangeEvent →
    List (String × List StateChangeEvent)
  | [], e => [(e.agent_id, [e])]
  | (k, es) :: rest, e =>
    if e.agent_id = k then (k, es ++ [e]) :: rest
    else (k, es) :: addAgent rest e

def groupByAgent (l : List StateChangeEvent) :
    List (String × List StateChangeEvent) :=
  l.foldl addAgent []

/-- `Timeline::generate` from `src/state.rs`. -/
def generate (events : List StateChangeEvent) : List (String × Timeline) :=
  match events with
  | [] => []
  | _ :: _ =>
    (groupByAgent events).filterMap
      (fun p => (generate_single_timeline p.2).map (fun tl => (p.1, tl)))

end Timeline

/-! ## Concrete instantiations used by counterexamples and witnesses -/

/-- A concrete environment used for counterexamples and witnesses:
a unit RNG whose exponential draws are always `1` and whose uniform draws
are always `0`, and a unit state type with an empty diff. -/
def envZ : SimEnv Unit Unit :=
  { diffS := fun _ _ _ => []
    expSample := fun r _ => (1, r)
    uniformBelow := fun r _ => (0, r) }

/-- An agent whose current category is present with a non-empty successor
list, all of whose weights are zero. -/
def agZ : Agent Unit Nat Unit :=
  { transition_matrix := fun _ =>
      some { factory := fun r => ((), r), transitions := [(0, 0)], event_rate := 1 }
    current_state_type := 0
    data := ()
    id := "z" }

/-- An agent with a single positive-weight successor. -/
def agW : Agent Unit Nat Unit :=
  { transition_matrix := fun _ =>
      some { factory := fun r => ((), r), transitions := [(7, 1)], event_rate := 1 }
    current_state_type := 0
    data := ()
    id := "w" }

/-- An agent whose single category is absent for every other category:
category `0` is defined, category `1` is not. -/
def agP : Agent Unit Nat Unit :=
  { transition_matrix := fun c =>
      if c = 0 then
        some { factory := fun r => ((), r), transitions := [], event_rate := 1 }
      else none
    current_state_type := 0
    data := ()
    id := "p" }

/-- A simple one-agent simulation used by witnesses. -/
def simW : Simulation Unit Nat Unit :=
  { agents := [agW], current_time := 0, event_log := [], rng := () }

/-- A terminal agent (empty successor list and zero rate) with id "t". -/
def agT : Agent Unit Nat Unit :=
  { transition_matrix := fun _ =>
      some { factory := fun r => ((), r), transitions := [], event_rate := 0 }
    current_state_type := 0
    data := ()
    id := "t" }

/-- Two agents: the live agent `agW` at index 0 and the degenerate `agT` at
index 1. -/
def simC8 : Simulation Unit Nat Unit :=
  { agents := [agW, agT], current_time := 0, event_log := [], rng := () }

/-- Concrete environment for the C4 counterexample: the exponential draw is
always `0` seconds (a possible draw from `Exp`, and any draw below half a
millisecond behaves the same after rounding), the uniform draw is `0`, and
the state type is `Nat` with a diff that reports a change of field `"v"`
whenever the values differ. -/
def envC4 : SimEnv Unit Nat :=
  { diffS := fun s t T =>
      if s = t then []
      else [{ time := T, agent_id := "", field := "v"
              new_value := "1", old_value := "0" }]
    expSample := fun r _ => (0, r)
    uniformBelow := fun r _ => (0, r) }

/-- One agent: category `false` generates state `0`, transitions to `true`
with weight `1`, mean dwell `1` second; category `true` generates state `1`
and is terminal with rate `0`. -/
def agC4 : Agent Unit Bool Nat :=
  { transition_matrix := fun c =>
      if c then
        some { factory := fun r => (1, r), transitions := [], event_rate := 0 }
      else
        some { factory := fun r => (0, r), transitions := [(true, 1)]
               event_rate := 1 }
    current_state_type := false
    data := 0
    id := "a" }

def simC4 : Simulation Unit Bool Nat :=
  { agents := [agC4], current_time := 0, event_log := [], rng := () }

/-! ## Agent-level theorems (C5, C6, C7, C9, C10) -/

/-- C5: on the silent-skip path the returned event list is empty yet the
category switch is recorded. -/
theorem apply_transition_absent_silent_skip {ρ C S : Type} (env : SimEnv ρ S)
    (a : Agent ρ C S) (new_type : C) (time : Int) (rng : ρ)
    (h : a.transition_matrix new_type = none) :
    Agent.apply_transition env a new_type time rng
      = ([], { a with current_state_type := new_type }, rng) := by
  unfold Agent.apply_transition Agent.get_target_state
  rw [h]
  rfl

/-- C10: on the silent-skip path the agent's state value is unchanged. -/
theorem apply_transition_absent_frame {ρ C S : Type} (env : SimEnv ρ S)
    (a : Agent ρ C S) (new_type : C) (time : Int) (rng : ρ)
    (h : a.transition_matrix new_type = none) :
    (Agent.apply_transition env a new_type time rng).2.1.data = a.data
      ∧ (Agent.apply_transition env a new_type time rng).2.1.id = a.id
      ∧ (Agent.apply_transition env a new_type time rng).2.1.transition_matrix
          = a.transition_matrix := by
  unfold Agent.apply_transition Agent.get_target_state
  rw [h]
  exact ⟨rfl, rfl, rfl⟩

/-- C6: when the target category is present but the generated state diffs as
identical to the current one, `apply_transition` returns zero events yet still
updates the recorded current category (and replaces the state value). -/
theorem apply_transition_noop_diff {ρ C S : Type} (env : SimEnv ρ S)
    (a : Agent ρ C S) (new_type : C) (time : Int) (rng : ρ)
    (d : StateType ρ C S) (hd : a.transition_matrix new_type = some d)
    (hdiff : env.diffS a.data (d.factory rng).1 time = []) :
    (Agent.apply_transition env a new_type time rng).1 = []
      ∧ (Agent.apply_transition env a new_type time rng).2.1.current_state_type
          = new_type := by
  unfold Agent.apply_transition Agent.get_target_state
  rw [hd]
  simp [hdiff]

theorem pickByWeight_mem {C : Type} :
    ∀ (l : List (C × Rat)) (u : Rat) (c : C),
      Agent.pickByWeight l u = some c → c ∈ l.map Prod.fst := by
  intro l
  induction l with
  | nil => intro u c h; exact absurd h (by simp [Agent.pickByWeight])
  | cons p rest ih =>
    intro u c h
    rw [Agent.pickByWeight] at h
    by_cases hu : u < p.2
    · rw [if_pos hu] at h
      simp only [Option.some.injEq] at h
      subst h
      exact List.mem_cons_self _ _
    · rw [if_neg hu] at h
      exact List.mem_cons_of_mem _ (ih _ _ h)

theorem pickByWeight_isSome {C : Type} :
    ∀ (l : List (C × Rat)) (u : Rat), (∀ p ∈ l, 0 ≤ p.2) → 0 ≤ u →
      u < (l.map Prod.snd).sum → ∃ c, Agent.pickByWeight l u = some c := by
  intro l
  induction l with
  | nil => intro u _ hu hlt; simp at hlt; exact absurd (lt_of_le_of_lt hu hlt) (lt_irrefl 0)
  | cons p rest ih =>
    intro u hnn hu hlt
    rw [Agent.pickByWeight]
    by_cases h : u < p.2
    · exact ⟨p.1, if_pos h⟩
    · have hw : p.2 ≤ u := not_lt.mp h
      have h0 : 0 ≤ u - p.2 := sub_nonneg.mpr hw
      have hs : u - p.2 < (rest.map Prod.snd).sum := by
        have : u < p.2 + (rest.map Prod.snd).sum := by
          simpa [List.map_cons, List.sum_cons] using hlt
        linarith
      obtain ⟨c, hc⟩ := ih (u - p.2) (fun q hq => hnn q (List.mem_cons_of_mem _ hq)) h0 hs
      exact ⟨c, by rw [if_neg h]; exact hc⟩

/-- C7 (amended): `step` returns `none` exactly when the current category's
definition is absent, its successor list is empty, or the weighted draw itself
fails (some weight negative, or the total weight non-positive — e.g. all
weights zero); whenever it returns a category, that category is drawn from the
successor list. -/
theorem step_spec {ρ C S : Type} (env : SimEnv ρ S)
    (hu : ∀ (r : ρ) (t : Rat), 0 < t →
      0 ≤ (env.uniformBelow r t).1 ∧ (env.uniformBelow r t).1 < t)
    (a : Agent ρ C S) (rng : ρ) :
    ((Agent.step env a rng).1 = none ↔
      a.transition_matrix a.current_state_type = none
        ∨ ∃ d, a.transition_matrix a.current_state_type = some d
            ∧ (d.transitions = [] ∨ (∃ p ∈ d.transitions, p.2 < 0)
                ∨ (d.transitions.map Prod.snd).sum ≤ 0))
      ∧ (∀ c, (Agent.step env a rng).1 = some c →
          ∃ d, a.transition_matrix a.current_state_type = some d
            ∧ c ∈ d.transitions.map Prod.fst) := by
  rcases h : a.transition_matrix a.current_state_type with _ | d
  · refine ⟨?_, ?_⟩
    · simp [Agent.step, h]
    · intro c hc
      simp [Agent.step, h] at hc
  · by_cases hemp : d.transitions.isEmpty
    · have he : d.transitions = [] := List.isEmpty_iff.mp hemp
      refine ⟨?_, ?_⟩
      · simp [Agent.step, h, hemp, he]
      · intro c hc
        simp [Agent.step, h, hemp] at hc
    · by_cases hneg : ∃ p ∈ d.transitions, p.2 < 0
      · refine ⟨?_, ?_⟩
        · simp only [Agent.step, h]
          rw [if_neg hemp, Agent.chooseWeighted, if_pos hneg]
          exact iff_of_true rfl (Or.inr ⟨d, rfl, Or.inr (Or.inl hneg)⟩)
        · intro c hc
          simp only [Agent.step, h] at hc
          rw [if_neg hemp, Agent.chooseWeighted, if_pos hneg] at hc
          exact absurd hc (by simp)
      · by_cases hsum : (d.transitions.map Prod.snd).sum ≤ 0
        · refine ⟨?_, ?_⟩
          · simp [Agent.step, h, hemp, Agent.chooseWeighted, hneg, hsum]
          · intro c hc
            simp [Agent.step, h, hemp, Agent.chooseWeighted, hneg, hsum] at hc
        · have hpos : 0 < (d.transitions.map Prod.snd).sum := lt_of_not_le hsum
          have hnn : ∀ p ∈ d.transitions, 0 ≤ p.2 := by
            intro p hp
            by_contra hcon
            exact hneg ⟨p, hp, lt_of_not_le hcon⟩
          obtain ⟨h0, h1⟩ := hu rng ((d.transitions.map Prod.snd).sum) hpos
          obtain ⟨c, hc⟩ := pickByWeight_isSome d.transitions
            ((env.uniformBelow rng ((d.transitions.map Prod.snd).sum)).1) hnn h0 h1
          have hstep1 : (Agent.step env a rng).1 = some c := by
            simp only [Agent.step, h]
            rw [if_neg hemp, Agent.chooseWeighted, if_neg hneg, if_neg hsum]
            exact hc
          refine ⟨?_, ?_⟩
          · rw [hstep1]
            constructor
            · intro hx; exact absurd hx (by simp)
            · rintro (hx | ⟨d', hd', hbad⟩)
              · exact absurd hx (by simp)
              · have hdd : d = d' := by injection hd'
                subst hdd
                rcases hbad with hb | hb | hb
                · exact absurd (List.isEmpty_iff.mpr hb) hemp
                · exact absurd hb hneg
                · exact absurd hb hsum
          · intro c' hc'
            rw [hstep1] at hc'
            have hcc : c = c' := by injection hc'
            subst hcc
            exact ⟨d, rfl, pickByWeight_mem _ _ _ hc⟩

/-- C7 counterexample: a present definition with a non-empty successor list on
which `step` nevertheless returns `none` (all weights are zero, so the
weighted draw fails and `.ok()` turns the error into `None`). -/
theorem step_nonempty_none_counterexample :
    (∃ d, agZ.transition_matrix agZ.current_state_type = some d
        ∧ d.transitions ≠ [])
      ∧ (Agent.step envZ agZ ()).1 = none := by
  constructor
  · exact ⟨_, rfl, by simp⟩
  · simp [Agent.step, agZ, Agent.chooseWeighted, envZ]

theorem step_spec_witness :
    ((Agent.step envZ agW ()).1 = none ↔
      agW.transition_matrix agW.current_state_type = none
        ∨ ∃ d, agW.transition_matrix agW.current_state_type = some d
            ∧ (d.transitions = [] ∨ (∃ p ∈ d.transitions, p.2 < 0)
                ∨ (d.transitions.map Prod.snd).sum ≤ 0))
      ∧ (∀ c, (Agent.step envZ agW ()).1 = some c →
          ∃ d, agW.transition_matrix agW.current_state_type = some d
            ∧ c ∈ d.transitions.map Prod.fst) :=
  step_spec envZ (fun _ _ ht => ⟨le_refl 0, ht⟩) agW ()

theorem apply_transition_absent_silent_skip_witness :
    Agent.apply_transition envZ agP 1 0 ()
      = ([], { agP with current_state_type := 1 }, ()) :=
  apply_transition_absent_silent_skip envZ agP 1 0 () rfl

theorem apply_transition_absent_frame_witness :
    (Agent.apply_transition envZ agP 1 0 ()).2.1.data = agP.data
      ∧ (Agent.apply_transition envZ agP 1 0 ()).2.1.id = agP.id
      ∧ (Agent.apply_transition envZ agP 1 0 ()).2.1.transition_matrix
          = agP.transition_matrix :=
  apply_transition_absent_frame envZ agP 1 0 () rfl

theorem apply_transition_noop_diff_witness :
    (Agent.apply_transition envZ agW 0 5 ()).1 = []
      ∧ (Agent.apply_transition envZ agW 0 5 ()).2.1.current_state_type = 0 :=
  apply_transition_noop_diff envZ agW 0 5 ()
    { factory := fun r => ((), r), transitions := [(7, 1)], event_rate := 1 }
    rfl rfl

/-- C9: agent construction fails exactly when the initial category is absent
from the transition table; on success the current category is the initial one,
the state is the one produced by invoking the initial category's generator
once at construction time, and the RNG is advanced by exactly that one
generator call. -/
theorem agent_new_spec {ρ C S : Type} (id : String) (c0 : C)
    (tm : C → Option (StateType ρ C S)) (rng : ρ) :
    (Agent.new id c0 tm rng = none ↔ tm c0 = none)
      ∧ (∀ (ag : Agent ρ C S) (rng' : ρ), Agent.new id c0 tm rng = some (ag, rng') →
          ag.current_state_type = c0 ∧ ag.id = id ∧ ag.transition_matrix = tm
            ∧ ∃ d, tm c0 = some d ∧ ag.data = (d.factory rng).1
                ∧ rng' = (d.factory rng).2) := by
  constructor
  · unfold Agent.new
    cases h : tm c0 <;> simp
  · intro ag rng' hnew
    unfold Agent.new at hnew
    cases h : tm c0 with
    | none => rw [h] at hnew; exact absurd hnew (by simp)
    | some d =>
      rw [h] at hnew
      simp only [Option.some.injEq, Prod.mk.injEq] at hnew
      obtain ⟨hag, hrng⟩ := hnew
      subst hag
      exact ⟨rfl, rfl, rfl, d, rfl, rfl, hrng.symm⟩

theorem agent_new_spec_witness :
    (Agent.new "a" 0 agW.transition_matrix () = none
        ↔ agW.transition_matrix 0 = none)
      ∧ (∀ (ag : Agent Unit Nat Unit) (rng' : Unit),
          Agent.new "a" 0 agW.transition_matrix () = some (ag, rng') →
          ag.current_state_type = 0 ∧ ag.id = "a"
            ∧ ag.transition_matrix = agW.transition_matrix
            ∧ ∃ d, agW.transition_matrix 0 = some d
                ∧ ag.data = (d.factory ()).1 ∧ rng' = (d.factory ()).2) :=
  agent_new_spec "a" 0 agW.transition_matrix ()

/-! ## Simulation-level theorems (C1, C2, C4, C8) -/

namespace Simulation

/-- `schedule_next_event` only advances the RNG in the simulation state. -/
theorem sched_fst_rng {ρ C S : Type} (env : SimEnv ρ S) (sim : Simulation ρ C S)
    (i : Nat) (q : List (ScheduledEvent C)) :
    ∃ r, (schedule_next_event env sim i q).1 = { sim with rng := r } := by
  unfold schedule_next_event
  rcases h : sim.agents.get? i with _ | a
  · exact ⟨sim.rng, rfl⟩
  · simp only
    rcases hpd : (Agent.peek_next_event_delay env a sim.rng).1 with _ | dl
    · exact ⟨_, rfl⟩
    · simp only
      rcases hpc : (Agent.step env a (Agent.peek_next_event_delay env a sim.rng).2).1 with _ | c
      · exact ⟨_, rfl⟩
      · exact ⟨_, rfl⟩

/-- `schedule_next_event` never reads the event log: running it with log
`L1` instead of `L2` changes nothing but the log field carried along. -/
theorem sched_set_log {ρ C S : Type} (env : SimEnv ρ S)
    (ags : List (Agent ρ C S)) (ct : Int) (L1 L2 : List StateChangeEvent)
    (r : ρ) (i : Nat) (q : List (ScheduledEvent C)) :
    schedule_next_event env ⟨ags, ct, L1, r⟩ i q
      = ({ (schedule_next_event env ⟨ags, ct, L2, r⟩ i q).1 with
           event_log := L1 },
         (schedule_next_event env ⟨ags, ct, L2, r⟩ i q).2) := by
  unfold schedule_next_event
  rcases h : ags.get? i with _ | a
  · simp only [h]
  · simp only [h]
    rcases hpd : (Agent.peek_next_event_delay env a r).1 with _ | dl
    · simp only [hpd]
    · simp only [hpd]
      rcases hpc : (Agent.step env a (Agent.peek_next_event_delay env a r).2).1 with _ | c
      · simp only [hpc]
      · simp only [hpc]

/-- `process_event_step` never reads the event log. -/
theorem pes_set_log {ρ C S : Type} (env : SimEnv ρ S)
    (ags : List (Agent ρ C S)) (ct : Int) (L1 L2 : List StateChangeEvent)
    (r : ρ) (e : ScheduledEvent C) (q : List (ScheduledEvent C)) :
    process_event_step env ⟨ags, ct, L1, r⟩ e q
      = ((process_event_step env ⟨ags, ct, L2, r⟩ e q).1,
         { (process_event_step env ⟨ags, ct, L2, r⟩ e q).2.1 with
           event_log := L1 },
         (process_event_step env ⟨ags, ct, L2, r⟩ e q).2.2) := by
  unfold process_event_step
  rcases ht : e.next_state_type with _ | target
  · simp only [ht]
  · simp only [ht]
    rcases ha : ags.get? e.agent_index with _ | agent
    · simp only [ha]
    · simp only [ha]
      rw [sched_set_log env _ _ L1 L2]

/-- `process_event_step` leaves the event log unchanged (the caller appends
the returned changes). -/
theorem pes_log {ρ C S : Type} (env : SimEnv ρ S) (s : Simulation ρ C S)
    (e : ScheduledEvent C) (q : List (ScheduledEvent C)) :
    (process_event_step env s e q).2.1.event_log = s.event_log := by
  unfold process_event_step
  rcases ht : e.next_state_type with _ | target
  · simp only [ht]
  · simp only [ht]
    rcases ha : s.agents.get? e.agent_index with _ | agent
    · simp only [ha]
    · simp only [ha]
      obtain ⟨r, hr⟩ := sched_fst_rng env
        { s with
          current_time := e.time
          agents := s.agents.set e.agent_index
            (Agent.apply_transition env agent target e.time s.rng).2.1
          rng := (Agent.apply_transition env agent target e.time s.rng).2.2 }
        e.agent_index q
      simp only at hr ⊢
      rw [hr]

/-- `run_loop_new` never reads the event log field. -/
theorem run_loop_new_set_log {ρ C S : Type} (env : SimEnv ρ S)
    (end_time : Int) :
    ∀ (fuel : Nat) (ags : List (Agent ρ C S)) (ct : Int)
      (L1 L2 : List StateChangeEvent) (r : ρ) (q : List (ScheduledEvent C)),
      run_loop_new env end_time fuel ⟨ags, ct, L1, r⟩ q
        = ({ (run_loop_new env end_time fuel ⟨ags, ct, L2, r⟩ q).1 with
             event_log := L1 },
           (run_loop_new env end_time fuel ⟨ags, ct, L2, r⟩ q).2) := by
  intro fuel
  induction fuel with
  | zero => intro ags ct L1 L2 r q; rfl
  | succ n ih =>
    intro ags ct L1 L2 r q
    match q with
    | [] => rfl
    | e :: rest =>
      rw [run_loop_new, run_loop_new]
      by_cases hlt : end_time < e.time
      · rw [if_pos hlt, if_pos hlt]
      · rw [if_neg hlt, if_neg hlt]
        rw [pes_set_log env _ _ L1 L2]
        have hrec := ih (process_event_step env ⟨ags, ct, L2, r⟩ e rest).2.1.agents
          (process_event_step env ⟨ags, ct, L2, r⟩ e rest).2.1.current_time
          L1 (process_event_step env ⟨ags, ct, L2, r⟩ e rest).2.1.event_log
          (process_event_step env ⟨ags, ct, L2, r⟩ e rest).2.1.rng
          (process_event_step env ⟨ags, ct, L2, r⟩ e rest).2.2
        have heta : (⟨(process_event_step env ⟨ags, ct, L2, r⟩ e rest).2.1.agents,
            (process_event_step env ⟨ags, ct, L2, r⟩ e rest).2.1.current_time,
            (process_event_step env ⟨ags, ct, L2, r⟩ e rest).2.1.event_log,
            (process_event_step env ⟨ags, ct, L2, r⟩ e rest).2.1.rng⟩
              : Simulation ρ C S)
            = (process_event_step env ⟨ags, ct, L2, r⟩ e rest).2.1 := rfl
        rw [heta] at hrec
        simp only [hrec]

/-- The batch loop is `run_loop_new` with the produced changes appended to
the initial event log. -/
theorem run_loop_eq {ρ C S : Type} (env : SimEnv ρ S) (end_time : Int) :
    ∀ (fuel : Nat) (ags : List (Agent ρ C S)) (ct : Int)
      (L : List StateChangeEvent) (r : ρ) (q : List (ScheduledEvent C)),
      run_loop env end_time fuel ⟨ags, ct, L, r⟩ q
        = { (run_loop_new env end_time fuel ⟨ags, ct, L, r⟩ q).1 with
            event_log :=
              L ++ (run_loop_new env end_time fuel ⟨ags, ct, L, r⟩ q).2 } := by
  intro fuel
  induction fuel with
  | zero => intro ags ct L r q; simp only [run_loop, run_loop_new, List.append_nil]
  | succ n ih =>
    intro ags ct L r q
    match q with
    | [] => simp only [run_loop, run_loop_new, List.append_nil]
    | e :: rest =>
      rw [run_loop, run_loop_new]
      by_cases hlt : end_time < e.time
      · rw [if_pos hlt, if_pos hlt]
        simp only [List.append_nil]
      · rw [if_neg hlt, if_neg hlt]
        have hl : (process_event_step env ⟨ags, ct, L, r⟩ e rest).2.1.event_log
            = L := pes_log env ⟨ags, ct, L, r⟩ e rest
        have hrec := ih (process_event_step env ⟨ags, ct, L, r⟩ e rest).2.1.agents
          (process_event_step env ⟨ags, ct, L, r⟩ e rest).2.1.current_time
          ((process_event_step env ⟨ags, ct, L, r⟩ e rest).2.1.event_log
            ++ (process_event_step env ⟨ags, ct, L, r⟩ e rest).1)
          (process_event_step env ⟨ags, ct, L, r⟩ e rest).2.1.rng
          (process_event_step env ⟨ags, ct, L, r⟩ e rest).2.2
        rw [hrec]
        rw [run_loop_new_set_log env end_time n _ _ _
          (process_event_step env ⟨ags, ct, L, r⟩ e rest).2.1.event_log]
        have heta : (⟨(process_event_step env ⟨ags, ct, L, r⟩ e rest).2.1.agents,
            (process_event_step env ⟨ags, ct, L, r⟩ e rest).2.1.current_time,
            (process_event_step env ⟨ags, ct, L, r⟩ e rest).2.1.event_log,
            (process_event_step env ⟨ags, ct, L, r⟩ e rest).2.1.rng⟩
              : Simulation ρ C S)
            = (process_event_step env ⟨ags, ct, L, r⟩ e rest).2.1 := rfl
        rw [heta, hl]
        simp only [List.append_assoc]

/-- The streaming loop is `run_loop_new` with the callback folded over the
produced changes. -/
theorem stream_loop_eq {ρ C S A : Type} (env : SimEnv ρ S) (end_time : Int)
    (f : A → StateChangeEvent → A) :
    ∀ (fuel : Nat) (s : Simulation ρ C S) (q : List (ScheduledEvent C))
      (acc : A),
      stream_loop env end_time f fuel s q acc
        = ((run_loop_new env end_time fuel s q).1,
           (run_loop_new env end_time fuel s q).2.foldl f acc) := by
  intro fuel
  induction fuel with
  | zero => intro s q acc; rfl
  | succ n ih =>
    intro s q acc
    match q with
    | [] => rfl
    | e :: rest =>
      rw [stream_loop, run_loop_new]
      by_cases hlt : end_time < e.time
      · rw [if_pos hlt, if_pos hlt]
        rfl
      · rw [if_neg hlt, if_neg hlt]
        simp only [ih, List.foldl_append]

/-- `run_loop_new` leaves the event log unchanged in its final state. -/
theorem run_loop_new_log {ρ C S : Type} (env : SimEnv ρ S) (end_time : Int) :
    ∀ (fuel : Nat) (s : Simulation ρ C S) (q : List (ScheduledEvent C)),
      (run_loop_new env end_time fuel s q).1.event_log = s.event_log := by
  intro fuel
  induction fuel with
  | zero => intro s q; rfl
  | succ n ih =>
    intro s q
    match q with
    | [] => rfl
    | e :: rest =>
      rw [run_loop_new]
      by_cases hlt : end_time < e.time
      · rw [if_pos hlt]
      · rw [if_neg hlt]
        simp only [ih, pes_log]

/-- Folding a list of indices through `schedule_next_event` only advances
the RNG of the simulation state. -/
theorem sched_fold_rng {ρ C S : Type} (env : SimEnv ρ S) :
    ∀ (l : List Nat) (s : Simulation ρ C S) (q : List (ScheduledEvent C)),
      ∃ r, (l.foldl (fun p i => schedule_next_event env p.1 i p.2) (s, q)).1
        = { s with rng := r } := by
  intro l
  induction l with
  | nil => intro s q; exact ⟨s.rng, rfl⟩
  | cons i l ih =>
    intro s q
    simp only [List.foldl_cons]
    obtain ⟨r0, h0⟩ := sched_fst_rng env s i q
    obtain ⟨r1, h1⟩ := ih (schedule_next_event env s i q).1
      (schedule_next_event env s i q).2
    refine ⟨r1, ?_⟩
    have : (schedule_next_event env s i q)
        = ((schedule_next_event env s i q).1, (schedule_next_event env s i q).2) := rfl
    rw [← this] at h1
    rw [h1, h0]

/-- Collecting events one at a time with an appending callback recovers the
whole list. -/
theorem foldl_append_singleton :
    ∀ (l acc : List StateChangeEvent),
      l.foldl (fun a e => a ++ [e]) acc = acc ++ l := by
  intro l
  induction l with
  | nil => intro acc; simp
  | cons e l ih => intro acc; simp [ih]

/-- C1: from identical initial states (with an empty accumulated log, as
both constructors guarantee), streaming mode with a list-collecting callback
produces exactly the event sequence that batch mode returns, and the final
simulation states agree on every field except the batch log. -/
theorem run_streaming_agrees_with_run {ρ C S : Type} (env : SimEnv ρ S)
    (fuel : Nat) (sim : Simulation ρ C S) (duration : Int)
    (h : sim.event_log = []) :
    (run_streaming env fuel sim duration (fun l e => l ++ [e]) []).2
      = (run env fuel sim duration).1
    ∧ (run_streaming env fuel sim duration (fun l e => l ++ [e]) []).1
      = { (run env fuel sim duration).2 with event_log := [] } := by
  obtain ⟨ags, ct, L, r⟩ := sim
  simp only at h
  subst h
  unfold run run_streaming init_queue
  obtain ⟨r', hp⟩ := sched_fold_rng env
    (List.range (Simulation.mk ags ct ([] : List StateChangeEvent) r).agents.length)
    ⟨ags, ct, [], r⟩ []
  simp only at hp ⊢
  rw [hp]
  rw [stream_loop_eq, run_loop_eq]
  have hN := run_loop_new_log env (ct + duration) fuel
    (⟨ags, ct, [], r'⟩ : Simulation ρ C S)
    ((List.range ags.length).foldl
      (fun p i => schedule_next_event env p.1 i p.2)
      (⟨ags, ct, [], r⟩, [])).2
  generalize hg : run_loop_new env (ct + duration) fuel
    (⟨ags, ct, [], r'⟩ : Simulation ρ C S)
    ((List.range ags.length).foldl
      (fun p i => schedule_next_event env p.1 i p.2)
      (⟨ags, ct, [], r⟩, [])).2 = N
  rw [hg] at hN
  obtain ⟨⟨na, nc, nl, nr⟩, nev⟩ := N
  simp only at hN
  subst hN
  constructor
  · rw [foldl_append_singleton]
  · rfl

theorem run_streaming_agrees_with_run_witness :
    (run_streaming envZ 2 simW 5 (fun l e => l ++ [e]) []).2
      = (run envZ 2 simW 5).1
    ∧ (run_streaming envZ 2 simW 5 (fun l e => l ++ [e]) []).1
      = { (run envZ 2 simW 5).2 with event_log := [] } :=
  run_streaming_agrees_with_run envZ 2 simW 5 rfl

/-! ### Monotonicity of the batch log (C2) -/

theorem roundRat_nonneg (q : Rat) (h : 0 ≤ q) : 0 ≤ roundRat q := by
  unfold roundRat
  rw [if_neg (not_lt.mpr h)]
  rw [Int.le_floor]
  push_cast
  linarith

theorem seconds_to_duration_nonneg (s : Rat) (h : 0 ≤ s) :
    0 ≤ seconds_to_duration s :=
  roundRat_nonneg _ (by positivity)

/-- A delay returned by `peek_next_event_delay` is a draw of `expSample` on
the incoming RNG state. -/
theorem peek_some_eq {ρ C S : Type} (env : SimEnv ρ S) (a : Agent ρ C S)
    (r : ρ) (dl : Rat)
    (h : (Agent.peek_next_event_delay env a r).1 = some dl) :
    ∃ lam, dl = (env.expSample r lam).1 := by
  rcases hm : a.transition_matrix a.current_state_type with _ | d
  · simp only [Agent.peek_next_event_delay, hm] at h
    exact absurd h (by simp)
  · simp only [Agent.peek_next_event_delay, hm] at h
    split at h
    · exact absurd h (by simp)
    · simp only [Option.some.injEq] at h
      exact ⟨1 / d.event_rate, h.symm⟩

/-- Every entry of the queue after `schedule_next_event` is either an old
entry, or a fresh event for the given agent index whose time is the current
time plus an `expSample` draw converted to a duration. -/
theorem sched_mem {ρ C S : Type} (env : SimEnv ρ S) (sim : Simulation ρ C S)
    (i : Nat) (q : List (ScheduledEvent C)) :
    ∀ x ∈ (schedule_next_event env sim i q).2, x ∈ q ∨
      (x.agent_index = i ∧ ∃ r0 m0, x.time
        = sim.current_time + seconds_to_duration ((env.expSample r0 m0).1)) := by
  unfold schedule_next_event
  rcases h : sim.agents.get? i with _ | a
  · intro x hx; exact Or.inl hx
  · simp only
    rcases hpd : (Agent.peek_next_event_delay env a sim.rng).1 with _ | dl
    · intro x hx; exact Or.inl hx
    · simp only
      rcases hpc : (Agent.step env a (Agent.peek_next_event_delay env a sim.rng).2).1 with _ | c
      · intro x hx; exact Or.inl hx
      · intro x hx
        simp only at hx
        rcases (List.mem_orderedInsert schedLE).mp hx with hxe | hxq
        · right
          subst hxe
          obtain ⟨lam, hdl⟩ := peek_some_eq env a sim.rng dl hpd
          exact ⟨rfl, sim.rng, lam, by rw [hdl]⟩
        · exact Or.inl hxq

theorem sched_sorted {ρ C S : Type} (env : SimEnv ρ S)
    (sim : Simulation ρ C S) (i : Nat) (q : List (ScheduledEvent C))
    (hs : q.Sorted schedLE) :
    ((schedule_next_event env sim i q).2).Sorted schedLE := by
  unfold schedule_next_event
  rcases h : sim.agents.get? i with _ | a
  · exact hs
  · simp only
    rcases hpd : (Agent.peek_next_event_delay env a sim.rng).1 with _ | dl
    · exact hs
    · simp only
      rcases hpc : (Agent.step env a (Agent.peek_next_event_delay env a sim.rng).2).1 with _ | c
      · exact hs
      · exact List.Sorted.orderedInsert _ _ hs

theorem sched_current {ρ C S : Type} (env : SimEnv ρ S)
    (sim : Simulation ρ C S) (i : Nat) (q : List (ScheduledEvent C)) :
    (schedule_next_event env sim i q).1.current_time = sim.current_time := by
  obtain ⟨r, hr⟩ := sched_fst_rng env sim i q
  rw [hr]

/-- Every event returned by `apply_transition` is stamped with the given
time, provided the diff capability stamps its events with the given time. -/
theorem apply_transition_times {ρ C S : Type} (env : SimEnv ρ S)
    (hdiff : ∀ s t T e, e ∈ env.diffS s t T → e.time = T)
    (a : Agent ρ C S) (ty : C) (T : Int) (r : ρ) :
    ∀ ev ∈ (Agent.apply_transition env a ty T r).1, ev.time = T := by
  unfold Agent.apply_transition
  rcases hg : a.get_target_state ty r with _ | p
  · intro ev hev; simp at hev
  · intro ev hev
    simp only [List.mem_map] at hev
    obtain ⟨e0, he0, rfl⟩ := hev
    show e0.time = T
    exact hdiff _ _ _ e0 he0

theorem pes_current {ρ C S : Type} (env : SimEnv ρ S)
    (sim : Simulation ρ C S) (e : ScheduledEvent C)
    (q : List (ScheduledEvent C)) :
    (process_event_step env sim e q).2.1.current_time = e.time := by
  unfold process_event_step
  rcases ht : e.next_state_type with _ | target
  · rfl
  · simp only
    rcases ha : sim.agents.get? e.agent_index with _ | agent
    · rfl
    · simp only
      rw [sched_current]

theorem pes_changes_time {ρ C S : Type} (env : SimEnv ρ S)
    (hdiff : ∀ s t T e, e ∈ env.diffS s t T → e.time = T)
    (sim : Simulation ρ C S) (e : ScheduledEvent C)
    (q : List (ScheduledEvent C)) :
    ∀ ev ∈ (process_event_step env sim e q).1, ev.time = e.time := by
  unfold process_event_step
  rcases ht : e.next_state_type with _ | target
  · intro ev hev; simp at hev
  · simp only
    rcases ha : sim.agents.get? e.agent_index with _ | agent
    · intro ev hev; simp at hev
    · simp only
      exact apply_transition_times env hdiff agent target e.time sim.rng

theorem pes_queue {ρ C S : Type} (env : SimEnv ρ S)
    (sim : Simulation ρ C S) (e : ScheduledEvent C)
    (q : List (ScheduledEvent C)) :
    ∀ x ∈ (process_event_step env sim e q).2.2, x ∈ q ∨
      (x.agent_index = e.agent_index ∧ ∃ r0 m0, x.time
        = e.time + seconds_to_duration ((env.expSample r0 m0).1)) := by
  unfold process_event_step
  rcases ht : e.next_state_type with _ | target
  · intro x hx; exact Or.inl hx
  · simp only
    rcases ha : sim.agents.get? e.agent_index with _ | agent
    · intro x hx; exact Or.inl hx
    · simp only
      intro x hx
      exact sched_mem env _ e.agent_index q x hx

theorem pes_queue_sorted {ρ C S : Type} (env : SimEnv ρ S)
    (sim : Simulation ρ C S) (e : ScheduledEvent C)
    (q : List (ScheduledEvent C)) (hs : q.Sorted schedLE) :
    ((process_event_step env sim e q).2.2).Sorted schedLE := by
  unfold process_event_step
  rcases ht : e.next_state_type with _ | target
  · exact hs
  · simp only
    rcases ha : sim.agents.get? e.agent_index with _ | agent
    · exact hs
    · simp only
      exact sched_sorted env _ e.agent_index q hs

/-- Loop invariant behind C2: with a sorted queue bounded below by the
current time, nonnegative exponential draws, and a time-honest diff
capability, the changes produced by the loop are time-sorted and bounded
below by the current time. -/
theorem run_loop_new_mono {ρ C S : Type} (env : SimEnv ρ S) (end_time : Int)
    (hexp : ∀ r m, 0 ≤ (env.expSample r m).1)
    (hdiff : ∀ s t T e, e ∈ env.diffS s t T → e.time = T) :
    ∀ (fuel : Nat) (sim : Simulation ρ C S) (q : List (ScheduledEvent C)),
      q.Sorted schedLE → (∀ x ∈ q, sim.current_time ≤ x.time) →
      ((run_loop_new env end_time fuel sim q).2.Pairwise
          (fun a b : StateChangeEvent => a.time ≤ b.time)
        ∧ ∀ ev ∈ (run_loop_new env end_time fuel sim q).2,
            sim.current_time ≤ ev.time) := by
  intro fuel
  induction fuel with
  | zero =>
    intro sim q _ _
    exact ⟨List.Pairwise.nil, by intro ev hev; simp [run_loop_new] at hev⟩
  | succ n ih =>
    intro sim q hs hb
    match q with
    | [] =>
      exact ⟨List.Pairwise.nil, by intro ev hev; simp [run_loop_new] at hev⟩
    | e :: rest =>
      rw [run_loop_new]
      by_cases hlt : end_time < e.time
      · rw [if_pos hlt]
        exact ⟨List.Pairwise.nil, by intro ev hev; simp at hev⟩
      · rw [if_neg hlt]
        have hce : sim.current_time ≤ e.time := hb e (List.mem_cons_self e rest)
        have hhead : ∀ b ∈ rest, e.time ≤ b.time :=
          fun b hbmem => List.rel_of_sorted_cons hs b hbmem
        have hcur := pes_current env sim e rest
        have hct := pes_changes_time env hdiff sim e rest
        have hqs := pes_queue_sorted env sim e rest (List.Sorted.of_cons hs)
        have hbound : ∀ x ∈ (process_event_step env sim e rest).2.2,
            (process_event_step env sim e rest).2.1.current_time ≤ x.time := by
          intro x hx
          rw [hcur]
          rcases pes_queue env sim e rest x hx with hxr | ⟨_, r0, m0, hxt⟩
          · exact hhead x hxr
          · rw [hxt]
            exact le_add_of_nonneg_right
              (seconds_to_duration_nonneg _ (hexp r0 m0))
        obtain ⟨ihPW, ihB⟩ := ih (process_event_step env sim e rest).2.1
          (process_event_step env sim e rest).2.2 hqs hbound
        constructor
        · simp only
          rw [List.pairwise_append]
          refine ⟨?_, ihPW, ?_⟩
          · exact List.pairwise_of_forall_mem_list
              (fun a ha b hbm => by rw [hct a ha, hct b hbm])
          · intro a ha b hbm
            rw [hct a ha]
            have := ihB b hbm
            rw [hcur] at this
            exact this
        · intro ev hev
          simp only at hev
          rcases List.mem_append.mp hev with hev1 | hev2
          · rw [hct ev hev1]; exact hce
          · have := ihB ev hev2
            rw [hcur] at this
            exact le_trans hce this

theorem sched_fold_queue {ρ C S : Type} (env : SimEnv ρ S) :
    ∀ (l : List Nat) (s : Simulation ρ C S) (q : List (ScheduledEvent C)),
      ∀ x ∈ (l.foldl (fun p i => schedule_next_event env p.1 i p.2) (s, q)).2,
        x ∈ q ∨ ∃ r0 m0, x.time
          = s.current_time + seconds_to_duration ((env.expSample r0 m0).1) := by
  intro l
  induction l with
  | nil => intro s q x hx; exact Or.inl hx
  | cons i l ih =>
    intro s q x hx
    simp only [List.foldl_cons] at hx
    have hpair : (schedule_next_event env s i q)
        = ((schedule_next_event env s i q).1, (schedule_next_event env s i q).2) := rfl
    rw [hpair] at hx
    rcases ih (schedule_next_event env s i q).1 (schedule_next_event env s i q).2 x hx
      with hq | ⟨r0, m0, hxt⟩
    · rcases sched_mem env s i q x hq with hq' | ⟨_, r0, m0, hxt⟩
      · exact Or.inl hq'
      · exact Or.inr ⟨r0, m0, hxt⟩
    · rw [sched_current] at hxt
      exact Or.inr ⟨r0, m0, hxt⟩

theorem sched_fold_sorted {ρ C S : Type} (env : SimEnv ρ S) :
    ∀ (l : List Nat) (s : Simulation ρ C S) (q : List (ScheduledEvent C)),
      q.Sorted schedLE →
      ((l.foldl (fun p i => schedule_next_event env p.1 i p.2) (s, q)).2).Sorted schedLE := by
  intro l
  induction l with
  | nil => intro s q hs; exact hs
  | cons i l ih =>
    intro s q hs
    simp only [List.foldl_cons]
    have hpair : (schedule_next_event env s i q)
        = ((schedule_next_event env s i q).1, (schedule_next_event env s i q).2) := rfl
    rw [hpair]
    exact ih _ _ (sched_sorted env s i q hs)

/-- C2: the event log returned by a batch-mode `run` is monotonically
non-decreasing in the `time` field, given that exponential draws are
nonnegative (true of `rand_distr::Exp`), that the user diff stamps its events
with the passed timestamp (the `State` contract), and that the log starts
empty (as both constructors guarantee). -/
theorem run_log_time_monotone {ρ C S : Type} (env : SimEnv ρ S) (fuel : Nat)
    (sim : Simulation ρ C S) (duration : Int)
    (hexp : ∀ r m, 0 ≤ (env.expSample r m).1)
    (hdiff : ∀ s t T e, e ∈ env.diffS s t T → e.time = T)
    (hlog : sim.event_log = []) :
    (run env fuel sim duration).1.Pairwise
      (fun a b : StateChangeEvent => a.time ≤ b.time) := by
  obtain ⟨ags, ct, L, r⟩ := sim
  simp only at hlog
  subst hlog
  unfold run init_queue
  obtain ⟨r', hp⟩ := sched_fold_rng env
    (List.range (Simulation.mk ags ct ([] : List StateChangeEvent) r).agents.length)
    ⟨ags, ct, [], r⟩ []
  simp only at hp ⊢
  rw [hp, run_loop_eq]
  have hsorted := sched_fold_sorted env (List.range ags.length)
    (⟨ags, ct, [], r⟩ : Simulation ρ C S) [] List.sorted_nil
  have hbound : ∀ x ∈ ((List.range ags.length).foldl
      (fun p i => schedule_next_event env p.1 i p.2)
      ((⟨ags, ct, [], r⟩ : Simulation ρ C S), [])).2, ct ≤ x.time := by
    intro x hx
    rcases sched_fold_queue env (List.range ags.length)
      (⟨ags, ct, [], r⟩ : Simulation ρ C S) [] x hx with hq | ⟨r0, m0, hxt⟩
    · exact absurd hq (List.not_mem_nil x)
    · rw [hxt]
      exact le_add_of_nonneg_right (seconds_to_duration_nonneg _ (hexp r0 m0))
  have hmono := run_loop_new_mono env (ct + duration) hexp hdiff fuel
    (⟨ags, ct, [], r'⟩ : Simulation ρ C S)
    ((List.range ags.length).foldl
      (fun p i => schedule_next_event env p.1 i p.2)
      ((⟨ags, ct, [], r⟩ : Simulation ρ C S), [])).2 hsorted hbound
  simpa using hmono.1

theorem run_log_time_monotone_witness :
    (run envZ 2 simW 5).1.Pairwise
      (fun a b : StateChangeEvent => a.time ≤ b.time) :=
  run_log_time_monotone envZ 2 simW 5
    (fun _ _ => by norm_num [envZ])
    (fun _ _ _ e he => absurd he (List.not_mem_nil e))
    rfl

/-! ### Zero-duration runs (C4) -/

/-- If every queued event lies strictly beyond the end time, the loop stops
immediately without touching the state (the popped event is discarded). -/
theorem run_loop_stop {ρ C S : Type} (env : SimEnv ρ S) (end_time : Int)
    (fuel : Nat) (s : Simulation ρ C S) (q : List (ScheduledEvent C))
    (h : ∀ x ∈ q, end_time < x.time) :
    run_loop env end_time fuel s q = s := by
  match fuel, q with
  | 0, _ => rfl
  | _ + 1, [] => rfl
  | _ + 1, e :: rest =>
    rw [run_loop, if_pos (h e (List.mem_cons_self e rest))]

/-- C4 (amended): a zero-duration run returns an empty event log provided
every sampled delay rounds to at least one millisecond.  (The unamended
claim fails: the loop only stops strictly beyond the end time, so an initial
delay that rounds to zero milliseconds schedules an event at exactly the
start time, which a zero-duration run still processes.) -/
theorem run_zero_duration_empty {ρ C S : Type} (env : SimEnv ρ S)
    (fuel : Nat) (sim : Simulation ρ C S)
    (hdelay : ∀ r m, 1 ≤ seconds_to_duration ((env.expSample r m).1))
    (hlog : sim.event_log = []) :
    (run env fuel sim 0).1 = [] := by
  obtain ⟨ags, ct, L, r⟩ := sim
  simp only at hlog
  subst hlog
  unfold run init_queue
  obtain ⟨r', hp⟩ := sched_fold_rng env
    (List.range (Simulation.mk ags ct ([] : List StateChangeEvent) r).agents.length)
    ⟨ags, ct, [], r⟩ []
  simp only at hp ⊢
  rw [hp]
  rw [run_loop_stop]
  intro x hx
  rcases sched_fold_queue env (List.range ags.length)
    (⟨ags, ct, [], r⟩ : Simulation ρ C S) [] x hx with hq | ⟨r0, m0, hxt⟩
  · exact absurd hq (List.not_mem_nil x)
  · rw [hxt]
    have := hdelay r0 m0
    simp only
    omega

theorem run_zero_duration_empty_witness :
    (run envZ 3 simW 0).1 = [] :=
  run_zero_duration_empty envZ 3 simW
    (fun _ _ => by norm_num [envZ, seconds_to_duration, roundRat]) rfl

/-! ### Degenerate agents stop producing events (C8) -/

/-- A degenerate current category (absent from the table, or with a
non-positive `event_rate`) makes `peek_next_event_delay` return `none`
without consuming randomness. -/
theorem peek_none_of_degenerate {ρ C S : Type} (env : SimEnv ρ S)
    (ai : Agent ρ C S)
    (hdeg : ai.transition_matrix ai.current_state_type = none
      ∨ ∃ d, ai.transition_matrix ai.current_state_type = some d
          ∧ d.event_rate ≤ 0) :
    ∀ r, Agent.peek_next_event_delay env ai r = (none, r) := by
  intro r
  rcases hdeg with h | ⟨d, hd, hrate⟩
  · simp only [Agent.peek_next_event_delay, h]
  · simp only [Agent.peek_next_event_delay, hd, if_pos hrate]

/-- When `peek_next_event_delay` yields `none` for an agent, the scheduler
pushes nothing for it and leaves the whole simulation state (including the
RNG, hence every other agent's scheduling) untouched. -/
theorem sched_no_event {ρ C S : Type} (env : SimEnv ρ S)
    (s : Simulation ρ C S) (i : Nat) (q : List (ScheduledEvent C))
    (ai : Agent ρ C S) (hai : s.agents.get? i = some ai)
    (hpeek : ∀ r, Agent.peek_next_event_delay env ai r = (none, r)) :
    schedule_next_event env s i q = (s, q) := by
  simp only [schedule_next_event, hai, hpeek]

/-- `apply_transition` preserves the agent's identity. -/
theorem apply_transition_id {ρ C S : Type} (env : SimEnv ρ S)
    (a : Agent ρ C S) (ty : C) (T : Int) (r : ρ) :
    (Agent.apply_transition env a ty T r).2.1.id = a.id := by
  unfold Agent.apply_transition
  rcases hg : a.get_target_state ty r with _ | p
  · rfl
  · rfl

/-- Every change produced by `apply_transition` is stamped with the
transitioning agent's id. -/
theorem apply_transition_changes_id {ρ C S : Type} (env : SimEnv ρ S)
    (a : Agent ρ C S) (ty : C) (T : Int) (r : ρ) :
    ∀ ev ∈ (Agent.apply_transition env a ty T r).1, ev.agent_id = a.id := by
  unfold Agent.apply_transition
  rcases hg : a.get_target_state ty r with _ | p
  · intro ev hev; simp at hev
  · intro ev hev
    simp only [List.mem_map] at hev
    obtain ⟨e0, _, rfl⟩ := hev
    rfl

theorem sched_fst_agents {ρ C S : Type} (env : SimEnv ρ S)
    (sim : Simulation ρ C S) (i : Nat) (q : List (ScheduledEvent C)) :
    (schedule_next_event env sim i q).1.agents = sim.agents := by
  obtain ⟨r, hr⟩ := sched_fst_rng env sim i q
  rw [hr]

/-- Changes produced by one step are stamped with the id of the agent the
popped event refers to. -/
theorem pes_changes_agent {ρ C S : Type} (env : SimEnv ρ S)
    (sim : Simulation ρ C S) (e : ScheduledEvent C)
    (q : List (ScheduledEvent C)) :
    ∀ ev ∈ (process_event_step env sim e q).1,
      ∃ a, sim.agents.get? e.agent_index = some a ∧ ev.agent_id = a.id := by
  unfold process_event_step
  rcases ht : e.next_state_type with _ | target
  · intro ev hev; simp at hev
  · simp only
    rcases ha : sim.agents.get? e.agent_index with _ | agent
    · intro ev hev; simp at hev
    · simp only
      intro ev hev
      exact ⟨agent, rfl, apply_transition_changes_id env agent target e.time sim.rng ev hev⟩

/-- One step leaves the entry for any agent index other than the processed
one untouched. -/
theorem pes_agents_get {ρ C S : Type} (env : SimEnv ρ S)
    (sim : Simulation ρ C S) (e : ScheduledEvent C)
    (q : List (ScheduledEvent C)) (i : Nat) (hne : e.agent_index ≠ i) :
    (process_event_step env sim e q).2.1.agents.get? i = sim.agents.get? i := by
  unfold process_event_step
  rcases ht : e.next_state_type with _ | target
  · rfl
  · simp only
    rcases ha : sim.agents.get? e.agent_index with _ | agent
    · rfl
    · simp only
      rw [sched_fst_agents]
      exact List.get?_set_ne _ _ hne

/-- One step changes an agent's entry only by replacing it with an agent of
the same id. -/
theorem pes_agent_ids {ρ C S : Type} (env : SimEnv ρ S)
    (sim : Simulation ρ C S) (e : ScheduledEvent C)
    (q : List (ScheduledEvent C)) (j : Nat) :
    (process_event_step env sim e q).2.1.agents.get? j = sim.agents.get? j
    ∨ ∃ a a', sim.agents.get? j = some a
        ∧ (process_event_step env sim e q).2.1.agents.get? j = some a'
        ∧ a'.id = a.id := by
  unfold process_event_step
  rcases ht : e.next_state_type with _ | target
  · exact Or.inl rfl
  · simp only
    rcases ha : sim.agents.get? e.agent_index with _ | agent
    · exact Or.inl rfl
    · simp only
      rw [sched_fst_agents]
      by_cases hj : e.agent_index = j
      · subst hj
        right
        have hlen : e.agent_index < sim.agents.length := by
          by_contra hc
          rw [List.get?_eq_none.mpr (le_of_not_lt hc)] at ha
          exact absurd ha (by simp)
        refine ⟨agent, _, ha, List.get?_set_eq_of_lt _ hlen, ?_⟩
        exact apply_transition_id env agent target e.time sim.rng
      · exact Or.inl (List.get?_set_ne _ _ hj)

/-- Loop invariant behind C8: if no queued event refers to agent `i` and no
agent other than `i` carries the id `tid`, then the loop produces no event
with id `tid` and never touches agent `i`'s entry. -/
theorem run_loop_new_no_agent {ρ C S : Type} (env : SimEnv ρ S)
    (end_time : Int) (i : Nat) (tid : String) :
    ∀ (fuel : Nat) (sim : Simulation ρ C S) (q : List (ScheduledEvent C)),
      (∀ x ∈ q, x.agent_index ≠ i) →
      (∀ j a, j ≠ i → sim.agents.get? j = some a → a.id ≠ tid) →
      ((∀ ev ∈ (run_loop_new env end_time fuel sim q).2, ev.agent_id ≠ tid)
        ∧ (run_loop_new env end_time fuel sim q).1.agents.get? i
            = sim.agents.get? i) := by
  intro fuel
  induction fuel with
  | zero =>
    intro sim q _ _
    exact ⟨by intro ev hev; simp [run_loop_new] at hev, rfl⟩
  | succ n ih =>
    intro sim q hq hids
    match q with
    | [] => exact ⟨by intro ev hev; simp [run_loop_new] at hev, rfl⟩
    | e :: rest =>
      rw [run_loop_new]
      by_cases hlt : end_time < e.time
      · rw [if_pos hlt]
        exact ⟨by intro ev hev; simp at hev, rfl⟩
      · rw [if_neg hlt]
        have hne : e.agent_index ≠ i := hq e (List.mem_cons_self e rest)
        have hq' : ∀ x ∈ (process_event_step env sim e rest).2.2,
            x.agent_index ≠ i := by
          intro x hx
          rcases pes_queue env sim e rest x hx with hxr | ⟨hxi, _⟩
          · exact hq x (List.mem_cons_of_mem e hxr)
          · rw [hxi]; exact hne
        have hids' : ∀ j a, j ≠ i →
            (process_event_step env sim e rest).2.1.agents.get? j = some a →
            a.id ≠ tid := by
          intro j a hj hja
          rcases pes_agent_ids env sim e rest j with hsame | ⟨a0, a1, h0, h1, h2⟩
          · rw [hsame] at hja
            exact hids j a hj hja
          · rw [h1] at hja
            have : a1 = a := by injection hja
            subst this
            rw [h2]
            exact hids j a0 hj h0
        obtain ⟨ihE, ihA⟩ := ih (process_event_step env sim e rest).2.1
          (process_event_step env sim e rest).2.2 hq' hids'
        constructor
        · intro ev hev
          simp only at hev
          rcases List.mem_append.mp hev with hev1 | hev2
          · obtain ⟨a, ha, hid⟩ := pes_changes_agent env sim e rest ev hev1
            rw [hid]
            exact hids e.agent_index a hne ha
          · exact ihE ev hev2
        · simp only
          rw [ihA]
          exact pes_agents_get env sim e rest i hne

/-- The initial queue build never schedules agent `i` when `i`'s scheduling
is a no-op, and it preserves the agents list. -/
theorem sched_fold_queue_index {ρ C S : Type} (env : SimEnv ρ S) (i : Nat)
    (ai : Agent ρ C S)
    (hpeek : ∀ r, Agent.peek_next_event_delay env ai r = (none, r)) :
    ∀ (l : List Nat) (s : Simulation ρ C S) (q : List (ScheduledEvent C)),
      s.agents.get? i = some ai → (∀ x ∈ q, x.agent_index ≠ i) →
      ∀ x ∈ (l.foldl (fun p j => schedule_next_event env p.1 j p.2) (s, q)).2,
        x.agent_index ≠ i := by
  intro l
  induction l with
  | nil => intro s q _ hq x hx; exact hq x hx
  | cons j l ih =>
    intro s q hs hq x hx
    simp only [List.foldl_cons] at hx
    have hpair : (schedule_next_event env s j q)
        = ((schedule_next_event env s j q).1, (schedule_next_event env s j q).2) := rfl
    rw [hpair] at hx
    have hs' : (schedule_next_event env s j q).1.agents.get? i = some ai := by
      rw [sched_fst_agents]; exact hs
    have hq' : ∀ y ∈ (schedule_next_event env s j q).2, y.agent_index ≠ i := by
      by_cases hji : j = i
      · subst hji
        rw [sched_no_event env s j q ai hs hpeek]
        exact hq
      · intro y hy
        rcases sched_mem env s j q y hy with hyq | ⟨hyi, _⟩
        · exact hq y hyq
        · rw [hyi]; exact hji
    exact ih _ _ hs' hq' x hx

/-- C8: an agent whose current category is absent from its table or has a
non-positive `event_rate` yields `none` from `peek_next_event_delay`; the
scheduler pushes nothing for it and leaves the state (including the shared
RNG, hence every other agent's scheduling) untouched; and over a whole run
the agent is never touched and, when its id is unique, no logged event
carries its id. -/
theorem degenerate_agent_no_events {ρ C S : Type} (env : SimEnv ρ S)
    (fuel : Nat) (sim : Simulation ρ C S) (duration : Int) (i : Nat)
    (ai : Agent ρ C S) (hai : sim.agents.get? i = some ai)
    (hdeg : ai.transition_matrix ai.current_state_type = none
      ∨ ∃ d, ai.transition_matrix ai.current_state_type = some d
          ∧ d.event_rate ≤ 0)
    (hids : ∀ j a, j ≠ i → sim.agents.get? j = some a → a.id ≠ ai.id)
    (hlog : sim.event_log = []) :
    (∀ r, Agent.peek_next_event_delay env ai r = (none, r))
    ∧ (∀ (s : Simulation ρ C S) (q : List (ScheduledEvent C)),
        s.agents.get? i = some ai → schedule_next_event env s i q = (s, q))
    ∧ (∀ ev ∈ (run env fuel sim duration).1, ev.agent_id ≠ ai.id)
    ∧ (run env fuel sim duration).2.agents.get? i = some ai := by
  have hpeek := peek_none_of_degenerate env ai hdeg
  refine ⟨hpeek, fun s q hs => sched_no_event env s i q ai hs hpeek, ?_⟩
  obtain ⟨ags, ct, L, r⟩ := sim
  simp only at hai hids hlog
  subst hlog
  unfold run init_queue
  obtain ⟨r', hp⟩ := sched_fold_rng env
    (List.range (Simulation.mk ags ct ([] : List StateChangeEvent) r).agents.length)
    ⟨ags, ct, [], r⟩ []
  simp only at hp ⊢
  rw [hp, run_loop_eq]
  have hqidx := sched_fold_queue_index env i ai hpeek
    (List.range ags.length) (⟨ags, ct, [], r⟩ : Simulation ρ C S) []
    hai (fun x hx => absurd hx (List.not_mem_nil x))
  have hloop := run_loop_new_no_agent env (ct + duration) i ai.id fuel
    (⟨ags, ct, [], r'⟩ : Simulation ρ C S)
    ((List.range ags.length).foldl
      (fun p j => schedule_next_event env p.1 j p.2)
      ((⟨ags, ct, [], r⟩ : Simulation ρ C S), [])).2 hqidx hids
  constructor
  · intro ev hev
    simp only at hev
    exact hloop.1 ev hev
  · simp only
    rw [hloop.2]
    exact hai

end Simulation

theorem degenerate_agent_no_events_witness :
    (∀ r, Agent.peek_next_event_delay envZ agT r = (none, r))
    ∧ (∀ (s : Simulation Unit Nat Unit) (q : List (ScheduledEvent Nat)),
        s.agents.get? 1 = some agT →
        Simulation.schedule_next_event envZ s 1 q = (s, q))
    ∧ (∀ ev ∈ (Simulation.run envZ 2 simC8 5).1, ev.agent_id ≠ agT.id)
    ∧ (Simulation.run envZ 2 simC8 5).2.agents.get? 1 = some agT :=
  Simulation.degenerate_agent_no_events envZ 2 simC8 5 1 agT rfl
    (Or.inr ⟨_, rfl, le_refl 0⟩)
    (by
      intro j a hj hja
      match j with
      | 0 =>
        have h0 : some agW = some a := hja
        have ha : agW = a := by injection h0
        subst ha
        decide
      | 1 => exact absurd rfl hj
      | n + 2 =>
        have h2 : (none : Option (Agent Unit Nat Unit)) = some a := hja
        exact absurd h2 (by simp))
    rfl

/-- C4 counterexample: with a delay draw of `0` seconds the initial event is
scheduled at exactly the start time; a zero-duration run still processes it
(the loop stops only strictly beyond the end time), so the returned log is
not empty. -/
theorem run_zero_duration_nonempty_counterexample :
    (Simulation.run envC4 2 simC4 0).1
      = [{ time := 0, agent_id := "a", field := "v"
           new_value := "1", old_value := "0" }] := by
  norm_num [Simulation.run, Simulation.init_queue, Simulation.run_loop,
    Simulation.process_event_step, Simulation.schedule_next_event,
    Simulation.seconds_to_duration, Simulation.roundRat, heapPush,
    Agent.peek_next_event_delay, Agent.step, Agent.chooseWeighted,
    Agent.pickByWeight, Agent.apply_transition, Agent.get_target_state,
    envC4, agC4, simC4, List.range_succ, List.orderedInsert]

/-! ### Timeline reconstruction of a two-event log (C3) -/

/-- C3: reconstructing the two-event log
`[(t0, "status", idle→busy), (t0, "load", 0→5)]` for one agent yields exactly
two entries: a synthetic initial entry at `t0` minus one second holding the
pre-history state with no changed fields, and an entry at `t0` holding the
updated state whose changed-fields list contains exactly `"status"` and
`"load"` (in some order). -/
theorem timeline_two_event_reconstruction (t0 : Int) (aid : String) :
    ∃ tl cf,
      Timeline.generate
        [{ time := t0, agent_id := aid, field := "status"
           new_value := "busy", old_value := "idle" },
         { time := t0, agent_id := aid, field := "load"
           new_value := "5", old_value := "0" }]
        = [(aid, tl)]
      ∧ tl.entries
          = [{ timestamp := t0 - 1000
               state := [("load", "0"), ("status", "idle")], events := [] },
             { timestamp := t0
               state := [("load", "5"), ("status", "busy")], events := cf }]
      ∧ (cf = ["status", "load"] ∨ cf = ["load", "status"]) := by
  refine ⟨⟨[{ timestamp := t0 - 1000
              state := [("load", "0"), ("status", "idle")], events := [] },
            { timestamp := t0
              state := [("load", "5"), ("status", "busy")]
              events := ["status", "load"] }]⟩,
          ["status", "load"], ?_, rfl, Or.inl rfl⟩
  have hls : ("load" : String) < "status" := by
    rw [String.lt_iff_toList_lt]; decide
  have hnsl : ¬ ("status" : String) < "load" := by
    rw [String.lt_iff_toList_lt]; decide
  have hne : ("load" : String) ≠ "status" := by decide
  have hne2 : ("status" : String) ≠ "load" := by decide
  simp [Timeline.generate, Timeline.groupByAgent, Timeline.addAgent,
    Timeline.generate_single_timeline, buildPre, btInsert, eventsByTime,
    groupInsert, applyGroup, buildEntries, hls, hnsl, hne, hne2]
